import Mathlib

/-!
Verification of the PaperScout arXiv paper retrieval and ranking pipeline
(src/paperscout/services/init_steps/step_fetch_arxiv_papers.py).

Modelling conventions of this shallow embedding:
* Python floats are modelled as exact rationals; the C math library
  logarithm is abstracted as a parameter of the scoring functions.
* Python strings are Lean strings; str.lower() is modelled as ASCII
  lowering (the tokenizer only distinguishes a-z, 0-9, underscore,
  hyphen and the CJK block, so non-ASCII case folding is irrelevant
  to the tokens produced).
* Network and embedding-model calls are external effects and are
  modelled as explicit oracles passed to the functions which use them.
* int(count * 0.7) is modelled as exact floor of 7*count/10.
-/

namespace PaperScout

/-- ASCII lowering (codes 65-90 map to 97-122), modelling the effect of
str.lower() on the character classes the tokenizer distinguishes. -/
def pyLower (c : Char) : Char :=
  if 65 ≤ c.toNat ∧ c.toNat ≤ 90 then Char.ofNat (c.toNat + 32) else c

/-- Python str.strip() whitespace class: space, tab, newline, carriage
return, vertical tab, form feed. -/
def isWsChar (c : Char) : Bool :=
  c.toNat = 32 || c.toNat = 9 || c.toNat = 10 || c.toNat = 13 ||
    c.toNat = 11 || c.toNat = 12

/-- Lower-case ASCII letter or digit: the regex class a-z0-9. -/
def isLowerAl (c : Char) : Bool :=
  (97 ≤ c.toNat && c.toNat ≤ 122) || (48 ≤ c.toNat && c.toNat ≤ 57)

/-- Continuation class of the first regex branch: a-z0-9, underscore
(code 95), hyphen (code 45). -/
def isContC (c : Char) : Bool :=
  isLowerAl c || c.toNat = 95 || c.toNat = 45

/-- CJK block 0x4e00-0x9fff as used by the tokenizer regex. -/
def isCJK (c : Char) : Bool :=
  0x4e00 ≤ c.toNat && c.toNat ≤ 0x9fff

/-- Python str.strip() on a character list. -/
def pyStripL (l : List Char) : List Char :=
  ((l.dropWhile isWsChar).reverse.dropWhile isWsChar).reverse

/-- Python str.strip() on strings. -/
def pyStripStr (s : String) : String :=
  String.mk (pyStripL s.data)

/-- Python truthiness-based or on strings: a or b. -/
def pyOr (a b : String) : String :=
  if a = "" then b else a

/-- Does the next character continue an ASCII token? -/
def headCont : List Char → Bool
  | [] => false
  | d :: _ => isContC d

/-- Fuel-driven form of the regex scanner; the fuel only serves
structural termination and is irrelevant once it dominates the input
length. -/
def findPartsF : ℕ → List Char → List (List Char)
  | 0, _ => []
  | _ + 1, [] => []
  | fuel + 1, c :: cs =>
    if isLowerAl c && headCont cs then
      (c :: cs.takeWhile isContC) :: findPartsF fuel (cs.dropWhile isContC)
    else if isCJK c then
      (c :: cs.takeWhile isCJK) :: findPartsF fuel (cs.dropWhile isCJK)
    else
      findPartsF fuel cs

/-- The scanner underlying re.findall with the pattern
[a-z0-9][a-z0-9_-]{1,}|[CJK]{1,}: at each position try the ASCII branch
(an a-z0-9 character followed by at least one continuation character,
greedy), then the CJK branch (a maximal CJK run), else advance one
character. -/
def findParts (l : List Char) : List (List Char) :=
  findPartsF l.length l

/-- Overlapping bigrams part[i:i+2] for i in range(len(part)-1). -/
def bigrams : List Char → List (List Char)
  | a :: b :: rest => [a, b] :: bigrams (b :: rest)
  | _ => []

/-- Per-part emission of _tokenize_for_overlap: a full CJK part of length
at most 2 is emitted verbatim, a longer CJK part as its overlapping
bigrams, any other part verbatim. -/
def emitPart (part : List Char) : List (List Char) :=
  if part.all isCJK then
    if part.length ≤ 2 then [part] else bigrams part
  else [part]

/-- Tokenization on an already lowercased character list, including the
final nonempty filter of the source. -/
def tokChars (l : List Char) : List (List Char) :=
  ((findParts l).flatMap emitPart).filter (fun t => !t.isEmpty)

/-- StepFetchArxivPapers._tokenize_for_overlap. -/
def tokenize_for_overlap (s : String) : List String :=
  (tokChars (s.data.map pyLower)).map (fun t => String.mk t)

/-- A paper record as parsed from the arXiv feed (the dict built in
_fetch_arxiv_by_query), with the mutable semantic_score annotation
attached by the ranking stages. -/
structure Paper where
  id : String
  title : String
  summary : String
  published : String
  authors : List String
  categories : List String
  url : String
  citation_count : Option Int
  semantic_score : Option ℚ
deriving DecidableEq

/-- The deduplication key str(p.get("id") or p.get("url") or p.get("title") or "").strip()
used throughout the pipeline. -/
def identityKey (p : Paper) : String :=
  pyStripStr (pyOr p.id (pyOr p.url p.title))

/-- First-occurrence deduplication by identity key with an explicit seen
set, dropping papers whose key is empty; this is the loop body shared by
_merge_unique_papers and the selection merger. -/
def dedupByKey (seen : List String) : List Paper → List Paper
  | [] => []
  | p :: rest =>
    if identityKey p ≠ "" ∧ identityKey p ∉ seen then
      p :: dedupByKey (identityKey p :: seen) rest
    else dedupByKey seen rest

/-- StepFetchArxivPapers._merge_unique_papers applied to the
concatenation of its argument groups. -/
def merge_unique_papers (l : List Paper) : List Paper :=
  dedupByKey [] l

/-- One of the two dedup-and-cap loops of the selection merger in run()
(lines 99-114): walk the list, appending unseen nonempty-key papers, and
stop as soon as the selection reaches the cap (the stop test runs after
each iteration, whether or not it appended). -/
def mergeLoop (cap : ℕ) (seen : List String) (selected : List Paper) :
    List Paper → List String × List Paper
  | [] => (seen, selected)
  | p :: rest =>
    if identityKey p ≠ "" ∧ identityKey p ∉ seen then
      if cap ≤ (selected ++ [p]).length then (identityKey p :: seen, selected ++ [p])
      else mergeLoop cap (identityKey p :: seen) (selected ++ [p]) rest
    else
      if cap ≤ selected.length then (seen, selected)
      else mergeLoop cap seen selected rest

/-- The selection merger of run(): walk the fine-ranked list, then, if
the cap was not reached, continue with the coarse-ranked list. -/
def selectMerge (fine coarse : List Paper) (cap : ℕ) : List Paper :=
  let r1 := mergeLoop cap [] [] fine
  if r1.2.length < cap then (mergeLoop cap r1.1 r1.2 coarse).2 else r1.2

/-- The sort key float(x.get("semantic_score", 0.0)) used by both
ranking stages. -/
def scoreKey (p : Paper) : ℚ :=
  p.semantic_score.getD 0

/-- Descending order on sort keys. Python list.sort(key=..., reverse=True)
is a stable descending sort; a stable sort is uniquely determined by the
comparator, so the structurally recursive stable insertionSort is an
exact model of it. -/
def scoreGE (a b : Paper) : Prop :=
  scoreKey b ≤ scoreKey a

instance : DecidableRel scoreGE :=
  fun a b => inferInstanceAs (Decidable (scoreKey b ≤ scoreKey a))

instance : IsTotal Paper scoreGE := ⟨fun a b => le_total (scoreKey b) (scoreKey a)⟩

instance : IsTrans Paper scoreGE := ⟨fun _ _ _ h h' => le_trans h' h⟩

/-- scored.sort(key=lambda x: float(x.get("semantic_score", 0.0)), reverse=True). -/
def pySortByScoreDesc (l : List Paper) : List Paper :=
  l.insertionSort scoreGE

/-- Python round(x, 6) on the exact rational value of the score. -/
def round6 (q : ℚ) : ℚ :=
  (round (q * 1000000) : ℤ) / 1000000

/-- The body tokens of a paper: tokenize(f-string of title, space, summary). -/
def docTokens (p : Paper) : List String :=
  tokenize_for_overlap (p.title ++ " " ++ p.summary)

/-- The title tokens of a paper. -/
def titleTokens (p : Paper) : List String :=
  tokenize_for_overlap p.title

/-- Number of documents whose token list contains the term: the df
Counter of _rank_keyword_overlap. -/
def dfCount (doc_terms : List (List String)) (t : String) : ℕ :=
  (doc_terms.filter (fun d => t ∈ d)).length

/-- idf(term) = log(1 + (n_docs - df + 0.5) / (df + 0.5)), with the
logarithm abstracted as logf. -/
def idfVal (logf : ℚ → ℚ) (n_docs : ℕ) (doc_terms : List (List String)) (t : String) : ℚ :=
  let dft : ℚ := dfCount doc_terms t
  logf (1 + ((n_docs : ℚ) - dft + 1/2) / (dft + 1/2))

/-- The BM25 term sum of one document (k1 = 1.2, b = 0.75, including the
max(1e-6, _) guards of the source; terms with zero frequency are
skipped, which only omits zero summands). -/
def bm25Sum (logf : ℚ → ℚ) (n_docs : ℕ) (doc_terms : List (List String))
    (avg_dl : ℚ) (query_terms terms : List String) : ℚ :=
  query_terms.foldl
    (fun acc term =>
      let freq : ℕ := terms.count term
      if freq = 0 then acc
      else
        let dl : ℚ := terms.length
        let denom := (freq : ℚ) + (6/5) * (1 - 3/4 + (3/4) * dl / max (1/1000000) avg_dl)
        acc + idfVal logf n_docs doc_terms term * (((freq : ℚ) * (6/5 + 1)) / max (1/1000000) denom))
    0

/-- The title-match bonus: 0.6 times the share of distinct query terms
appearing among the title terms, only added when the title has tokens. -/
def titleBonus (query_terms t_terms : List String) : ℚ :=
  if t_terms ≠ [] then
    (6/10) * (((query_terms.dedup.filter (fun term => term ∈ t_terms)).length : ℚ) /
      max 1 (query_terms.dedup.length : ℚ))
  else 0

/-- The complete per-document score of _rank_keyword_overlap: zero for a
document with no tokens, otherwise BM25 term sum plus title bonus. -/
def docScoreVal (logf : ℚ → ℚ) (n_docs : ℕ) (doc_terms : List (List String))
    (avg_dl : ℚ) (query_terms terms t_terms : List String) : ℚ :=
  if terms = [] then 0
  else bm25Sum logf n_docs doc_terms avg_dl query_terms terms + titleBonus query_terms t_terms

/-- StepFetchArxivPapers._rank_keyword_overlap: BM25-with-title-bonus
scoring of each paper against the query, rounded to 6 decimal digits,
attached as semantic_score, stably sorted descending. Papers are
returned unchanged when the query (or the document list) yields no
tokens. -/
def rank_keyword_overlap (logf : ℚ → ℚ) (papers : List Paper) (query_text : String) :
    List Paper :=
  let query_terms := tokenize_for_overlap query_text
  if query_terms = [] then papers
  else
    let doc_terms := papers.map docTokens
    if doc_terms = [] then papers
    else
      let n_docs := doc_terms.length
      let avg_dl : ℚ := ((doc_terms.map List.length).sum : ℚ) / max 1 (n_docs : ℚ)
      let scored := papers.map (fun p =>
        { p with semantic_score := some (round6
            (docScoreVal logf n_docs doc_terms avg_dl query_terms (docTokens p) (titleTokens p))) })
      pySortByScoreDesc scored

/-- The score the specification ascribes to a document: the (guarded)
BM25 term sum with k1 = 1.2 and b = 0.75 over the whole document set,
plus the additive title bonus 0.6 x (distinct query terms found among
the title terms / distinct query terms) -- with no special case for
token-free documents. Stated from the specification for comparison with
the ranker embedded from the source. -/
def specScoreOf (logf : ℚ → ℚ) (papers : List Paper) (query_text : String)
    (p : Paper) : ℚ :=
  let query_terms := tokenize_for_overlap query_text
  let doc_terms := papers.map docTokens
  let avg_dl : ℚ := ((doc_terms.map List.length).sum : ℚ) / max 1 (doc_terms.length : ℚ)
  bm25Sum logf doc_terms.length doc_terms avg_dl query_terms (docTokens p) +
    titleBonus query_terms (titleTokens p)

/-- Lower-case a whole string (str.lower() restricted to ASCII). -/
def strLower (s : String) : String :=
  String.mk (s.data.map pyLower)

/-- Contiguous-substring test, modelling the Python expression k in text. -/
def startsWithL : List Char → List Char → Bool
  | [], _ => true
  | _ :: _, [] => false
  | a :: as, b :: bs => a = b && startsWithL as bs

def containsSub (needle : List Char) : List Char → Bool
  | [] => needle.isEmpty
  | b :: rest => startsWithL needle (b :: rest) || containsSub needle rest

def strContains (hay needle : String) : Bool :=
  containsSub needle.data hay.data

/-- StepFetchArxivPapers._keyword_filter: keep papers whose lowered
title-plus-summary contains some lowered, stripped, nonblank keyword;
with no usable keywords the filter is the identity. -/
def keyword_filter (papers : List Paper) (keywords : List String) : List Paper :=
  let kws := keywords.filterMap (fun k =>
    if pyStripStr k = "" then none else some (pyStripStr (strLower k)))
  if kws = [] then papers
  else papers.filter (fun p =>
    kws.any (fun k => strContains (strLower (p.title ++ " " ++ p.summary)) k))

/-- Dot product of two equal-length embedding vectors
(query_vec @ vec). -/
def dotProd (u v : List ℚ) : ℚ :=
  ((u.zip v).map (fun pr => pr.1 * pr.2)).sum

/-- StepFetchArxivPapers._rank_semantic. The sentence-transformers
dependency is external: the whole load-model-and-encode try block is
abstracted as an oracle from (selected model, texts) to either
normalized embeddings or failure (None covers import failure, load
failure and encode failure alike). The mutable backend fields
_last_rank_backend and _last_semantic_model are threaded explicitly;
a fresh step instance starts at ("bm25", ""). -/
def rank_semantic (logf : ℚ → ℚ) (options : List String)
    (embed : String → List String → Option (List ℚ × List (List ℚ)))
    (papers : List Paper) (query_text model_name : String)
    (prev_backend prev_model : String) : List Paper × String × String :=
  if papers = [] then ([], prev_backend, prev_model)
  else
    let clean_query := pyStripStr query_text
    if clean_query = "" then (papers, prev_backend, prev_model)
    else
      let docs := papers.map (fun p => pyStripStr (p.title ++ "\n" ++ p.summary))
      let selected_model :=
        let m := pyStripStr (pyOr model_name "BAAI/bge-large-en-v1.5")
        if m ∈ options then m else "BAAI/bge-large-en-v1.5"
      match embed selected_model (clean_query :: docs) with
      | none => (rank_keyword_overlap logf papers clean_query, "bm25", "")
      | some (query_vec, doc_vecs) =>
        let scored := (papers.zip doc_vecs).map (fun pv =>
          { pv.1 with semantic_score := some (round6 (dotProd query_vec pv.2)) })
        (pySortByScoreDesc scored, "sentence-transformers", selected_model)

/-- get_system_param_int of config.settings: the raw settings value is
modelled as None when the key is missing, blank or unparseable, and as
the parsed integer otherwise; the result falls back to the default and
is clamped to [min_value, max_value]. -/
def get_system_param_int (raw : Option Int) (default min_value max_value : Int) : Int :=
  max min_value (min max_value (raw.getD default))

/-- StepFetchArxivPapers._safe_int: int(value), falling back to the
default when the conversion raises; the raw argument is the conversion
outcome. -/
def safe_int (raw : Option Int) (default : Int) : Int :=
  raw.getD default

/-- StepFetchArxivPapers._norm_list: a non-list yields the default;
otherwise the stripped nonblank entries, or the default when none
remain. -/
def norm_list (value : Option (List String)) (default : List String) : List String :=
  match value with
  | none => default
  | some l =>
    let out := (l.map pyStripStr).filter (fun x => x ≠ "")
    if out = [] then default else out

/-- The fetch parameters derived by run() (lines 39-67). -/
structure QueryPlan where
  categories : List String
  keywords : List String
  target_count : Int
  max_results : Int
  coarse_target_count : Int
  fetch_count : Int
deriving DecidableEq

/-- The query-plan computation of run() lines 39-67: normalize and
truncate categories and keywords, resolve max_results against the two
configured settings, and derive target, fetch and coarse pool sizes by
multiplier-and-clamp. -/
def buildQueryPlan (categoriesRaw keywordsRaw : Option (List String))
    (maxResultsRaw : Option Int) (finalCountSetting fetchMaxSetting : Option Int) :
    QueryPlan :=
  let categories := (norm_list categoriesRaw ["cs.AI", "cs.LG"]).take 2
  let keywords := (norm_list keywordsRaw ["large language model", "transformer"]).take 2
  let configured_final_count := get_system_param_int finalCountSetting 5 1 50
  let configured_max_results := get_system_param_int fetchMaxSetting 20 5 300
  let max_results0 := safe_int maxResultsRaw configured_max_results
  let max_results := max configured_final_count (min 300 max_results0)
  let target_count := configured_final_count
  let fetch_count0 := max (max_results * 4) (max (target_count * 12) 80)
  let fetch_count := max 40 (min 300 fetch_count0)
  let coarse_target_count0 := max max_results (max (target_count * 6) 30)
  let coarse_target_count := max target_count (min 120 coarse_target_count0)
  ⟨categories, keywords, target_count, max_results, coarse_target_count, fetch_count⟩

/-- Metadata record of the resilient fetcher. -/
structure FetchMeta where
  source : String
  errors : List String
  used_cache : Bool
deriving DecidableEq

/-- " OR ".join on a list of strings. -/
def joinSep (sep : String) : List String → String
  | [] => ""
  | [a] => a
  | a :: rest => a ++ sep ++ joinSep sep rest

/-- StepFetchArxivPapers._build_query. -/
def build_query (categories keywords : List String) : String :=
  let cat_q := joinSep " OR " (categories.map (fun c => "cat:" ++ c))
  let kw_q := joinSep " OR " (keywords.map (fun k => "all:\"" ++ k ++ "\""))
  if cat_q ≠ "" ∧ kw_q ≠ "" then "(" ++ cat_q ++ ") AND (" ++ kw_q ++ ")"
  else if cat_q ≠ "" then cat_q
  else if kw_q ≠ "" then kw_q
  else "all:machine learning"

/-- A minimal concrete paper used in witnesses and counterexamples. -/
def mkPaper (i t : String) : Paper :=
  ⟨i, t, "", "", [], [], "", none, none⟩

/-- The external arXiv HTTP-plus-XML call _fetch_arxiv_by_query,
abstracted as an oracle from (search_query, max_results, timeout_sec,
sortBy, sortOrder) to either a parsed paper list or the text of the
raised exception. -/
abbrev ArxivNet : Type :=
  String → ℕ → ℕ → String → String → Except String (List Paper)

/-- The strict query ingredients of _fetch_arxiv_resilient. -/
def strict_categories_of (categories : List String) : List String :=
  if categories = [] then ["cs.AI"] else categories.take 2

def strict_keywords_of (keywords : List String) : List String :=
  if keywords = [] then ["machine learning"] else keywords.take 2

def strict_query_of (categories keywords : List String) : String :=
  build_query (strict_categories_of categories) (strict_keywords_of keywords)

def fallback_query_of (categories keywords : List String) : String :=
  build_query ((strict_categories_of categories).take 1)
    ((strict_keywords_of keywords).take 1)

/-- One fetch attempt of _fetch_arxiv_resilient: a relevance-sorted
sub-request for about 70 percent of the count, then a recency-sorted
sub-request for the rest, merged with deduplication; an exception in
either sub-request aborts the attempt. -/
def fetch_attempt (net : ArxivNet) (query : String) (count timeout_sec : ℕ) :
    Except String (List Paper) :=
  let relevance_count := max 1 (7 * count / 10)
  let recency_count := max 1 (count - relevance_count)
  match net query (max 5 (min 300 relevance_count)) timeout_sec "relevance" "descending" with
  | .error e => .error e
  | .ok relevance_papers =>
    match net query (max 3 (min 300 recency_count)) timeout_sec "submittedDate" "descending" with
    | .error e => .error e
    | .ok recency_papers => .ok (merge_unique_papers (relevance_papers ++ recency_papers))

/-- The timeout-budget loop of _fetch_arxiv_resilient for one query
plan, accumulating tagged error strings; the first attempt with a
nonempty merged result wins. -/
def run_timeouts (net : ArxivNet) (label query : String) (count : ℕ) :
    List ℕ → List String → List String × Option (List Paper)
  | [], errs => (errs, none)
  | t :: ts, errs =>
    match fetch_attempt net query count t with
    | .ok papers =>
      if papers ≠ [] then (errs, some papers)
      else run_timeouts net label query count ts (errs ++ [label ++ ":empty"])
    | .error e =>
      run_timeouts net label query count ts (errs ++ [label ++ ":t" ++ toString t ++ ":" ++ e])

/-- The plan loop of _fetch_arxiv_resilient: skip blank queries, return
the first winning attempt with its label, else fall through with the
accumulated error trail. -/
def run_plans (net : ArxivNet) :
    List (String × String × ℕ × List ℕ) → List String → List Paper × FetchMeta
  | [], errs => ([], ⟨"none", errs, false⟩)
  | (label, query, count, timeouts) :: rest, errs =>
    if pyStripStr query = "" then run_plans net rest errs
    else
      match run_timeouts net label query count timeouts errs with
      | (errs', some papers) => (papers, ⟨label, errs', false⟩)
      | (errs', none) => run_plans net rest errs'

/-- StepFetchArxivPapers._fetch_arxiv_resilient. -/
def fetch_arxiv_resilient (net : ArxivNet) (categories keywords : List String)
    (fetch_count : ℕ) : List Paper × FetchMeta :=
  run_plans net
    [("strict_2c2k", strict_query_of categories keywords, fetch_count, [20, 30, 45]),
     ("fallback_1c1k", fallback_query_of categories keywords, max fetch_count 20, [20, 35])]
    []

/-- A concrete network oracle used in witnesses: every request for the
strict query of the sample inputs raises, everything else returns one
paper. -/
def netFailStrict : ArxivNet := fun q _ _ _ _ =>
  if q = strict_query_of ["cs.AI", "cs.LG"] ["aa", "bb"] then .error "boom"
  else .ok [mkPaper "p" "t"]

/-- The failure tag _fetch_arxiv_resilient records for one attempt:
label:t{timeout}:{error} on an exception, label:empty on an empty merged
result, nothing on success. -/
def failTag (label : String) (t : ℕ) : Except String (List Paper) → Option String
  | .error e => some (label ++ ":t" ++ toString t ++ ":" ++ e)
  | .ok [] => some (label ++ ":empty")
  | .ok (_ :: _) => none

/-- A cache-file entry: the payload's papers array may mix dict-shaped
records with other JSON values, which load filters out. -/
inductive CacheEntry where
  | dict (p : Paper)
  | nondict
deriving DecidableEq

def CacheEntry.isDict : CacheEntry → Bool
  | .dict _ => true
  | .nondict => false

/-- The value found in the papers slot of the payload. -/
inductive PapersVal where
  | list (l : List CacheEntry)
  | notList
deriving DecidableEq

/-- The value found in the saved_at slot: a number, or something
float() raises on. -/
inductive SavedVal where
  | num (q : ℚ)
  | malformed
deriving DecidableEq

/-- The on-disk state _load_cache finds: no file, a file json.load
raises on, a parsed non-mapping, or a mapping with optional saved_at and
papers slots. -/
inductive CacheFile where
  | missing
  | unparseable
  | notMapping
  | mapping (saved_at : Option SavedVal) (papers : Option PapersVal)
deriving DecidableEq

/-- float(payload.get("saved_at", 0) or 0): absent means 0, a number is
itself, anything float() rejects aborts the load (None). -/
def floatOfSaved : Option SavedVal → Option ℚ
  | none => some 0
  | some (.num q) => some q
  | some .malformed => none

/-- StepFetchArxivPapers._save_cache with the write succeeding: the
payload {version: 1, saved_at: now, papers: dict-shaped entries of
papers[:80]}. -/
def save_cache (papers : List CacheEntry) (now : ℚ) : CacheFile :=
  .mapping (some (.num now)) (some (.list ((papers.take 80).filter CacheEntry.isDict)))

/-- StepFetchArxivPapers._load_cache: empty on a missing, unparseable or
non-mapping file; empty when float(saved_at) raises; empty when
saved_at > 0 and now - saved_at exceeds the max age; otherwise the
dict-shaped entries of the papers slot (empty when the slot is absent or
not a list). -/
def load_cache (file : CacheFile) (now max_age_hours : ℚ) : List CacheEntry :=
  match file with
  | .missing => []
  | .unparseable => []
  | .notMapping => []
  | .mapping sv pv =>
    match floatOfSaved sv with
    | none => []
    | some saved_at =>
      if 0 < saved_at ∧ max_age_hours * 3600 < now - saved_at then []
      else
        match pv with
        | none => []
        | some (.list l) => l.filter CacheEntry.isDict
        | some .notList => []

/-- The seen set accumulated by first-occurrence deduplication
(proof-side companion of dedupByKey and mergeLoop). -/
def ddSeen (seen : List String) : List Paper → List String
  | [] => seen
  | p :: rest =>
    if identityKey p ≠ "" ∧ identityKey p ∉ seen then ddSeen (identityKey p :: seen) rest
    else ddSeen seen rest

/-- Number of distinct nonempty identity keys of a paper list: the size
of the union of the two merged lists in the sense of the specification. -/
def keyCount (l : List Paper) : ℕ :=
  ((l.map identityKey).filter (fun k => decide (k ≠ ""))).toFinset.card

/-- The coarse-pool computation of run() lines 82-92: the keyword filter
result is computed (its length is reported as arxiv_keyword_filtered)
but the coarse ranking runs on the unfiltered fetched list; the coarse
candidates are its first coarse_target_count entries, which feed the
fine ranker. -/
structure CoarseStage where
  filtered : List Paper
  coarse_ranked : List Paper
  coarse_candidates : List Paper
deriving DecidableEq

def coarseStage (logf : ℚ → ℚ) (papers : List Paper) (keywords : List String)
    (query_text : String) (coarse_target_count : ℕ) : CoarseStage :=
  let filtered := keyword_filter papers keywords
  let coarse_ranked := rank_keyword_overlap logf papers query_text
  ⟨filtered, coarse_ranked, coarse_ranked.take coarse_target_count⟩

section Lemmas

theorem length_dropWhile_le (p : Char → Bool) (l : List Char) :
    (l.dropWhile p).length ≤ l.length :=
  (List.dropWhile_suffix p).sublist.length_le

theorem findPartsF_eq (fuel₁ : ℕ) (fuel₂ : ℕ) (l : List Char)
    (h₁ : l.length ≤ fuel₁) (h₂ : l.length ≤ fuel₂) :
    findPartsF fuel₁ l = findPartsF fuel₂ l := by
  induction fuel₁ generalizing fuel₂ l with
  | zero =>
    match l, h₁ with
    | [], _ => cases fuel₂ <;> rfl
  | succ f ih =>
    match l with
    | [] => cases fuel₂ <;> rfl
    | c :: cs =>
      match fuel₂, h₂ with
      | f₂ + 1, h₂ =>
        have hlen : cs.length ≤ f := by
          simp only [List.length_cons] at h₁; omega
        have hlen₂ : cs.length ≤ f₂ := by
          simp only [List.length_cons] at h₂; omega
        have d1 := length_dropWhile_le isContC cs
        have d2 := length_dropWhile_le isCJK cs
        simp only [findPartsF]
        by_cases hc1 : (isLowerAl c && headCont cs) = true
        · rw [if_pos hc1, if_pos hc1, ih _ _ (le_trans d1 hlen) (le_trans d1 hlen₂)]
        · rw [if_neg hc1, if_neg hc1]
          by_cases hc2 : isCJK c = true
          · rw [if_pos hc2, if_pos hc2, ih _ _ (le_trans d2 hlen) (le_trans d2 hlen₂)]
          · rw [if_neg hc2, if_neg hc2]
            exact ih _ _ hlen hlen₂

theorem findPartsF_fuel (fuel : ℕ) (l : List Char) (h : l.length ≤ fuel) :
    findPartsF fuel l = findParts l :=
  findPartsF_eq fuel l.length l h (le_refl _)

theorem findParts_nil : findParts [] = [] := rfl

theorem findParts_cons (c : Char) (cs : List Char) :
    findParts (c :: cs) =
      if isLowerAl c && headCont cs then
        (c :: cs.takeWhile isContC) :: findParts (cs.dropWhile isContC)
      else if isCJK c then
        (c :: cs.takeWhile isCJK) :: findParts (cs.dropWhile isCJK)
      else
        findParts cs := by
  show findPartsF (cs.length + 1) (c :: cs) = _
  simp only [findPartsF]
  rw [findPartsF_fuel _ _ (length_dropWhile_le _ _),
    findPartsF_fuel _ _ (length_dropWhile_le _ _),
    findPartsF_fuel _ _ (le_refl _)]


theorem cont_of_lowerAl {c : Char} (h : isLowerAl c = true) : isContC c = true := by
  simp [isContC, h]

theorem not_cjk_of_cont {c : Char} (h : isContC c = true) : isCJK c = false := by
  simp only [isContC, isLowerAl, Bool.or_eq_true, Bool.and_eq_true,
    decide_eq_true_eq] at h
  rw [← Bool.not_eq_true]
  simp only [isCJK, Bool.and_eq_true, decide_eq_true_eq]
  omega

theorem not_lowerAl_of_cjk {c : Char} (h : isCJK c = true) : isLowerAl c = false := by
  simp only [isCJK, Bool.and_eq_true, decide_eq_true_eq] at h
  rw [← Bool.not_eq_true]
  simp only [isLowerAl, Bool.or_eq_true, Bool.and_eq_true, decide_eq_true_eq]
  omega

theorem not_cont_of_ws {c : Char} (h : isWsChar c = true) : isContC c = false := by
  simp only [isWsChar, Bool.or_eq_true, decide_eq_true_eq] at h
  rw [← Bool.not_eq_true]
  simp only [isContC, isLowerAl, Bool.or_eq_true, Bool.and_eq_true,
    decide_eq_true_eq]
  omega

theorem not_cjk_of_ws {c : Char} (h : isWsChar c = true) : isCJK c = false := by
  simp only [isWsChar, Bool.or_eq_true, decide_eq_true_eq] at h
  rw [← Bool.not_eq_true]
  simp only [isCJK, Bool.and_eq_true, decide_eq_true_eq]
  omega

theorem not_lowerAl_of_not_cont {c : Char} (h : isContC c = false) :
    isLowerAl c = false := by
  by_contra hx
  rw [cont_of_lowerAl (by revert hx; cases isLowerAl c <;> simp)] at h
  cases h

theorem takeWhile_append_not (p : Char → Bool) (c : Char) (hc : p c = false) :
    ∀ (u v : List Char), (u ++ c :: v).takeWhile p = u.takeWhile p := by
  intro u v
  induction u with
  | nil => simp [List.takeWhile_cons, hc]
  | cons a u' ih =>
    simp only [List.cons_append, List.takeWhile_cons]
    cases p a <;> simp [ih]

theorem dropWhile_append_not (p : Char → Bool) (c : Char) (hc : p c = false) :
    ∀ (u v : List Char), (u ++ c :: v).dropWhile p = u.dropWhile p ++ c :: v := by
  intro u v
  induction u with
  | nil => simp [List.dropWhile_cons, hc]
  | cons a u' ih =>
    simp only [List.cons_append, List.dropWhile_cons]
    cases p a <;> simp [ih]

theorem headCont_append_sep (u' : List Char) (c : Char) (v : List Char)
    (hc : isContC c = false) : headCont (u' ++ c :: v) = headCont u' := by
  cases u' with
  | nil => simp [headCont, hc]
  | cons d _ => rfl

/-- The scanner distributes over any character that can extend neither
an ASCII token nor a CJK run. -/
theorem findParts_append_sep :
    ∀ (u : List Char) (c : Char) (v : List Char), isContC c = false →
      isCJK c = false → findParts (u ++ c :: v) = findParts u ++ findParts v
  | [], c, v, h1, h2 => by
    rw [List.nil_append, findParts_cons, findParts_nil,
      not_lowerAl_of_not_cont h1, h2]
    simp
  | a :: u', c, v, h1, h2 => by
    rw [List.cons_append, findParts_cons, findParts_cons a u',
      headCont_append_sep u' c v h1]
    by_cases ha : (isLowerAl a && headCont u') = true
    · rw [if_pos ha, if_pos ha,
        takeWhile_append_not isContC c h1,
        dropWhile_append_not isContC c h1,
        findParts_append_sep (u'.dropWhile isContC) c v h1 h2]
      simp
    · rw [if_neg ha, if_neg ha]
      by_cases hcjk : isCJK a = true
      · rw [if_pos hcjk, if_pos hcjk,
          takeWhile_append_not isCJK c h2,
          dropWhile_append_not isCJK c h2,
          findParts_append_sep (u'.dropWhile isCJK) c v h1 h2]
        simp
      · rw [if_neg hcjk, if_neg hcjk]
        exact findParts_append_sep u' c v h1 h2
termination_by u => u.length
decreasing_by
  · exact Nat.lt_succ_of_le (length_dropWhile_le _ _)
  · exact Nat.lt_succ_of_le (length_dropWhile_le _ _)
  · exact Nat.lt_succ_self _

/-- A character that starts nothing is skipped by the scanner. -/
theorem findParts_cons_sep (c : Char) (v : List Char) (h1 : isContC c = false)
    (h2 : isCJK c = false) : findParts (c :: v) = findParts v := by
  rw [findParts_cons, not_lowerAl_of_not_cont h1, h2]
  simp

theorem tokChars_append_sep (u : List Char) (c : Char) (v : List Char)
    (h1 : isContC c = false) (h2 : isCJK c = false) :
    tokChars (u ++ c :: v) = tokChars u ++ tokChars v := by
  unfold tokChars
  rw [findParts_append_sep u c v h1 h2, List.flatMap_append, List.filter_append]

theorem findParts_all_ws (t : List Char) (ht : ∀ x ∈ t, isWsChar x = true) :
    findParts t = [] := by
  induction t with
  | nil => rfl
  | cons w t' ih =>
    have hw := ht w (List.mem_cons_self _ _)
    rw [findParts_cons_sep w t' (not_cont_of_ws hw) (not_cjk_of_ws hw)]
    exact ih (fun x hx => ht x (List.mem_cons_of_mem _ hx))

theorem findParts_append_ws (u t : List Char) (ht : ∀ x ∈ t, isWsChar x = true) :
    findParts (u ++ t) = findParts u := by
  cases t with
  | nil => simp
  | cons w t' =>
    have hw := ht w (List.mem_cons_self _ _)
    rw [findParts_append_sep u w t' (not_cont_of_ws hw) (not_cjk_of_ws hw),
      findParts_all_ws t' (fun x hx => ht x (List.mem_cons_of_mem _ hx))]
    simp

theorem findParts_ws_prepend (t u : List Char) (ht : ∀ x ∈ t, isWsChar x = true) :
    findParts (t ++ u) = findParts u := by
  induction t with
  | nil => rfl
  | cons w t' ih =>
    have hw := ht w (List.mem_cons_self _ _)
    rw [List.cons_append,
      findParts_cons_sep w (t' ++ u) (not_cont_of_ws hw) (not_cjk_of_ws hw)]
    exact ih (fun x hx => ht x (List.mem_cons_of_mem _ hx))

/-- Stripping surrounding whitespace does not change the scanner output. -/
theorem findParts_pyStripL (l : List Char) : findParts (pyStripL l) = findParts l := by
  unfold pyStripL
  have hdrop : findParts (l.dropWhile isWsChar) = findParts l := by
    conv_rhs => rw [← List.takeWhile_append_dropWhile isWsChar l]
    rw [findParts_ws_prepend]
    intro x hx
    exact List.mem_takeWhile_imp hx
  rw [← hdrop]
  set m := l.dropWhile isWsChar with hm
  have hsplit : m = (m.reverse.dropWhile isWsChar).reverse ++
      (m.reverse.takeWhile isWsChar).reverse := by
    conv_lhs => rw [← List.reverse_reverse m,
      ← List.takeWhile_append_dropWhile isWsChar m.reverse]
    rw [List.reverse_append]
  conv_rhs => rw [hsplit]
  rw [findParts_append_ws]
  intro x hx
  rw [List.mem_reverse] at hx
  exact List.mem_takeWhile_imp hx

theorem toNat_ofNat_valid (n : ℕ) (h : n < 55296) : (Char.ofNat n).toNat = n := by
  unfold Char.ofNat
  rw [dif_pos (Or.inl h)]
  rfl

theorem pyLower_ws (c : Char) : isWsChar (pyLower c) = isWsChar c := by
  unfold pyLower
  by_cases h : 65 ≤ c.toNat ∧ c.toNat ≤ 90
  · rw [if_pos h]
    have hv : (Char.ofNat (c.toNat + 32)).toNat = c.toNat + 32 :=
      toNat_ofNat_valid _ (by omega)
    have hl : isWsChar (Char.ofNat (c.toNat + 32)) = false := by
      rw [← Bool.not_eq_true]
      simp only [isWsChar, hv, Bool.or_eq_true, decide_eq_true_eq]
      omega
    have hr : isWsChar c = false := by
      rw [← Bool.not_eq_true]
      simp only [isWsChar, Bool.or_eq_true, decide_eq_true_eq]
      omega
    rw [hl, hr]
  · rw [if_neg h]

theorem pyStripL_map_pyLower (l : List Char) :
    pyStripL (l.map pyLower) = (pyStripL l).map pyLower := by
  have hws : (isWsChar ∘ pyLower) = isWsChar := by
    funext c
    exact pyLower_ws c
  unfold pyStripL
  rw [List.dropWhile_map, hws, ← List.map_reverse, List.dropWhile_map, hws,
    ← List.map_reverse]

/-- Stripping the query before tokenizing (as _rank_semantic does) yields
the same tokens as tokenizing the raw query. -/
theorem tokenize_pyStrip (s : String) :
    tokenize_for_overlap (pyStripStr s) = tokenize_for_overlap s := by
  show ((tokChars (((pyStripL s.data)).map pyLower)).map (fun t => String.mk t)) = _
  rw [← pyStripL_map_pyLower]
  unfold tokChars
  rw [findParts_pyStripL]
  rfl

theorem pyLower_sep_space : isContC (pyLower ' ') = false ∧ isCJK (pyLower ' ') = false := by
  decide

/-- Tokenization of the f-string "{title} {summary}" splits at the
space: the document tokens are the title tokens followed by the summary
tokens. -/
theorem tokenize_append_space (a b : String) :
    tokenize_for_overlap (a ++ " " ++ b) =
      tokenize_for_overlap a ++ tokenize_for_overlap b := by
  unfold tokenize_for_overlap
  have hdata : (a ++ " " ++ b).data = a.data ++ ' ' :: b.data := by
    rw [String.data_append, String.data_append, List.append_assoc]
    rfl
  rw [hdata, List.map_append, List.map_cons,
    tokChars_append_sep _ _ _ pyLower_sep_space.1 pyLower_sep_space.2,
    List.map_append]

theorem bigrams_ne_nil : ∀ (l : List Char), ∀ x ∈ bigrams l, x ≠ [] := by
  intro l
  induction l with
  | nil => simp [bigrams]
  | cons a t ih =>
    cases t with
    | nil => simp [bigrams]
    | cons b rest =>
      intro x hx
      rw [bigrams] at hx
      rcases List.mem_cons.mp hx with rfl | hx'
      · simp
      · exact ih x hx'

/-- Claim C8 is false as stated: in "x_ab 中文" the maximal ASCII
alphanumeric run "ab" (length 2) is not emitted as a whole token (the
underscore joins it to the preceding run into one token "x_ab"), and the
CJK run of length 2 is emitted verbatim as the single token "中文", not
as unigrams. -/
theorem C8_counterexample :
    tokenize_for_overlap "x_ab 中文" = ["x_ab", "中文"] ∧
    "ab" ∉ tokenize_for_overlap "x_ab 中文" ∧
    "中" ∉ tokenize_for_overlap "x_ab 中文" := by decide

/-- Claim C8 (amended): after ASCII lowercasing, (1) tokenization
distributes over every character that is neither in the token class
[a-z0-9_-] nor CJK; (2) a run consisting of an ASCII alphanumeric
character followed by characters of the class [a-z0-9_-] is emitted as
one whole token when its length is at least 2 and produces nothing when
it is a single character — so underscore and hyphen join adjacent
alphanumeric runs into one token; (3) a leading underscore or hyphen is
skipped; (4) a CJK run of length at most 2 is emitted verbatim as a
single token (for length 2 this is the run itself, not two unigrams)
and a CJK run of length greater than 2 is emitted as its overlapping
bigrams; and (5) _tokenize_for_overlap is exactly this tokenization of
the lowercased input. -/
theorem C8_tokenizer_amended :
    (∀ (u : List Char) (c : Char) (v : List Char), isContC c = false →
      isCJK c = false → tokChars (u ++ c :: v) = tokChars u ++ tokChars v) ∧
    (∀ (a : Char) (t : List Char), isLowerAl a = true →
      (∀ x ∈ t, isContC x = true) →
      tokChars (a :: t) = if t = [] then [] else [a :: t]) ∧
    (∀ (c : Char) (v : List Char), isContC c = true → isLowerAl c = false →
      tokChars (c :: v) = tokChars v) ∧
    (∀ r : List Char, r ≠ [] → (∀ x ∈ r, isCJK x = true) →
      tokChars r = if r.length ≤ 2 then [r] else bigrams r) ∧
    (∀ s : String, tokenize_for_overlap s =
      (tokChars (s.data.map pyLower)).map (fun t => String.mk t)) := by
  refine ⟨tokChars_append_sep, ?_, ?_, ?_, fun s => rfl⟩
  · intro a t ha ht
    cases t with
    | nil =>
      rw [if_pos rfl]
      unfold tokChars
      rw [findParts_cons]
      have hcjk : isCJK a = false := not_cjk_of_cont (cont_of_lowerAl ha)
      rw [hcjk]
      simp [headCont, findParts_nil]
    | cons d t' =>
      rw [if_neg (by simp)]
      unfold tokChars
      rw [findParts_cons]
      have hcond : (isLowerAl a && headCont (d :: t')) = true := by
        rw [ha]
        simp only [headCont, ht d (List.mem_cons_self _ _)]
        rfl
      rw [if_pos hcond, List.takeWhile_eq_self_iff.mpr ht,
        List.dropWhile_eq_nil_iff.mpr ht, findParts_nil]
      have hall : (a :: d :: t').all isCJK = false := by
        simp only [List.all_cons, not_cjk_of_cont (cont_of_lowerAl ha),
          Bool.false_and]
      simp [emitPart, hall]
  · intro c v hc hla
    unfold tokChars
    rw [findParts_cons, hla, not_cjk_of_cont hc]
    simp
  · intro r hr hall
    match r, hr with
    | a :: t, _ =>
      unfold tokChars
      rw [findParts_cons, not_lowerAl_of_cjk (hall a (List.mem_cons_self _ _)),
        hall a (List.mem_cons_self _ _)]
      have htail : ∀ x ∈ t, isCJK x = true :=
        fun x hx => hall x (List.mem_cons_of_mem _ hx)
      rw [List.takeWhile_eq_self_iff.mpr htail,
        List.dropWhile_eq_nil_iff.mpr htail, findParts_nil]
      simp only [Bool.false_and, Bool.false_eq_true, if_false, if_true,
        List.flatMap_cons, List.flatMap_nil, List.append_nil]
      unfold emitPart
      rw [List.all_eq_true.mpr hall]
      by_cases hlen : (a :: t).length ≤ 2
      · rw [if_pos hlen]
        simp
      · rw [if_neg hlen]
        simp only [if_true]
        rw [List.filter_eq_self.mpr]
        intro x hx
        have hne := bigrams_ne_nil (a :: t) x hx
        simp [List.isEmpty_iff, hne]

/-- Witness exercising every clause of the amended claim C8 at concrete
inputs. -/
theorem C8_tokenizer_amended_witness :
    tokChars (['x'] ++ ' ' :: ['y', 'z']) = tokChars ['x'] ++ tokChars ['y', 'z'] ∧
    tokChars ['a', '-', 'b'] = [['a', '-', 'b']] ∧
    tokChars ('_' :: ['a', 'b']) = tokChars ['a', 'b'] ∧
    tokChars ['中', '文', '字'] = bigrams ['中', '文', '字'] := by
  refine ⟨C8_tokenizer_amended.1 ['x'] ' ' ['y', 'z'] (by decide) (by decide), ?_, ?_, ?_⟩
  · have h := C8_tokenizer_amended.2.1 'a' ['-', 'b'] (by decide) (by decide)
    simpa using h
  · exact C8_tokenizer_amended.2.2.1 '_' ['a', 'b'] (by decide) (by decide)
  · have h := C8_tokenizer_amended.2.2.2.1 ['中', '文', '字'] (by decide) (by decide)
    simpa using h

theorem rank_keyword_overlap_nil (logf : ℚ → ℚ) (q : String) :
    rank_keyword_overlap logf [] q = [] := by
  by_cases h : tokenize_for_overlap q = [] <;> simp [rank_keyword_overlap, h]

theorem tokenize_of_strip_empty (q : String) (h : pyStripStr q = "") :
    tokenize_for_overlap q = [] := by
  rw [← tokenize_pyStrip, h]
  rfl

theorem rank_keyword_overlap_no_terms (logf : ℚ → ℚ) (papers : List Paper)
    (q : String) (h : tokenize_for_overlap q = []) :
    rank_keyword_overlap logf papers q = papers := by
  unfold rank_keyword_overlap
  rw [h]
  simp

theorem rank_keyword_overlap_strip (logf : ℚ → ℚ) (papers : List Paper) (q : String) :
    rank_keyword_overlap logf papers (pyStripStr q) = rank_keyword_overlap logf papers q := by
  unfold rank_keyword_overlap
  rw [tokenize_pyStrip]

/-- Claim C4: whenever obtaining an embedding model fails (import, load
or encode failure, modelled by the oracle returning None), the fine
ranker started from a fresh step instance returns exactly the list the
BM25 coarse ranker produces on the same pool and query, and reports the
bm25 fallback backend. This holds for every pool and query, including
the early-return paths (empty pool, blank query), on which both sides
return the pool unchanged. -/
theorem C4_rank_semantic_fallback (logf : ℚ → ℚ) (options : List String)
    (papers : List Paper) (query_text model_name : String) :
    rank_semantic logf options (fun _ _ => none) papers query_text model_name
        "bm25" "" =
      (rank_keyword_overlap logf papers query_text, "bm25", "") := by
  unfold rank_semantic
  by_cases hp : papers = []
  · rw [if_pos hp, hp, rank_keyword_overlap_nil]
  · rw [if_neg hp]
    by_cases hq : pyStripStr query_text = ""
    · rw [if_pos hq,
        rank_keyword_overlap_no_terms logf papers query_text
          (tokenize_of_strip_empty query_text hq)]
    · rw [if_neg hq]
      show (rank_keyword_overlap logf papers (pyStripStr query_text), "bm25", "") = _
      rw [rank_keyword_overlap_strip]

/-- Claim C9: for every list of dict-shaped papers, loading the cache
immediately after a successful save (within the 24-hour expiry window)
returns exactly the first 80 records of the saved list. -/
theorem C9_cache_round_trip (papers : List CacheEntry) (now now2 : ℚ)
    (hdict : ∀ p ∈ papers, p.isDict = true)
    (hwin : now2 - now ≤ 24 * 3600) :
    load_cache (save_cache papers now) now2 24 = papers.take 80 := by
  simp only [save_cache, load_cache, floatOfSaved]
  rw [if_neg (fun hx => absurd hx.2 (not_lt.mpr hwin))]
  have htake : ∀ p ∈ papers.take 80, CacheEntry.isDict p = true :=
    fun p hp => hdict p (List.take_subset _ _ hp)
  rw [List.filter_eq_self.mpr htake, List.filter_eq_self.mpr htake]

/-- Witness for claim C9 at a concrete paper list and timestamps. -/
theorem C9_cache_round_trip_witness :
    load_cache (save_cache [CacheEntry.dict (mkPaper "a" "t")] 1000) 1000 24 =
      [CacheEntry.dict (mkPaper "a" "t")].take 80 :=
  C9_cache_round_trip [CacheEntry.dict (mkPaper "a" "t")] 1000 1000
    (by decide) (by norm_num)

/-- Claim C10 is false as stated: a fresh, well-formed mapping whose
papers list is empty makes load return the empty list although none of
the four stated conditions holds; and a mapping with a non-positive
saved_at is never treated as expired, so load returns its papers even
when now - saved_at far exceeds the maximum age. -/
theorem C10_counterexample :
    load_cache (.mapping (some (.num 1000)) (some (.list []))) 1000 24 = [] ∧
    ¬((24 : ℚ) * 3600 < (1000 : ℚ) - 1000) ∧
    load_cache
        (.mapping (some (.num (-1000000000)))
          (some (.list [.dict (mkPaper "a" "t")]))) 1000000000 24 =
      [.dict (mkPaper "a" "t")] ∧
    (24 : ℚ) * 3600 < (1000000000 : ℚ) - (-1000000000) := by
  refine ⟨by norm_num [load_cache, floatOfSaved], by norm_num,
    by norm_num [load_cache, floatOfSaved, CacheEntry.isDict], by norm_num⟩

/-- Claim C10 (amended): load never raises (it is a total function) and
returns the dict-shaped entries of the papers list exactly when the file
is a mapping whose saved_at value parses as a number and is not both
positive and older than max_age_hours; it returns the empty list in
every other situation — also when the papers slot is absent, not a list,
or holds no dict-shaped record, and never because of age when
saved_at ≤ 0. -/
theorem C10_load_cache_amended (file : CacheFile) (now ma : ℚ) :
    (load_cache file now ma = [] ↔
      ¬ ∃ sv pv sa l, file = .mapping sv pv ∧ floatOfSaved sv = some sa ∧
        ¬(0 < sa ∧ ma * 3600 < now - sa) ∧ pv = some (.list l) ∧
        l.filter CacheEntry.isDict ≠ []) ∧
    (∀ sv l sa, file = .mapping sv (some (.list l)) →
      floatOfSaved sv = some sa → ¬(0 < sa ∧ ma * 3600 < now - sa) →
      load_cache file now ma = l.filter CacheEntry.isDict) := by
  constructor
  · cases file with
    | missing => simp [load_cache]
    | unparseable => simp [load_cache]
    | notMapping => simp [load_cache]
    | mapping sv pv =>
      cases hsv : floatOfSaved sv with
      | none => simp [load_cache, hsv]
      | some sa =>
        by_cases hexp : 0 < sa ∧ ma * 3600 < now - sa
        · simp only [load_cache, hsv]
          rw [if_pos hexp]
          simp only [true_iff, not_exists]
          intro sv' pv' sa' l'
          rintro ⟨h1, h2, h3, h4, h5⟩
          rw [CacheFile.mapping.injEq] at h1
          obtain ⟨rfl, rfl⟩ := h1
          rw [hsv] at h2
          cases h2
          exact h3 hexp
        · simp only [load_cache, hsv]
          rw [if_neg hexp]
          cases pv with
          | none => simp [hsv]
          | some pval =>
            cases pval with
            | notList => simp [hsv]
            | list l =>
              constructor
              · intro hempty hex
                obtain ⟨sv', pv', sa', l', h1, h2, h3, h4, h5⟩ := hex
                rw [CacheFile.mapping.injEq] at h1
                obtain ⟨rfl, rfl⟩ := h1
                cases h4
                exact h5 hempty
              · intro hnone
                by_contra hne
                exact hnone ⟨sv, some (.list l), sa, l, rfl, hsv, hexp, rfl, hne⟩
  · rintro sv l sa rfl hsv hfresh
    simp only [load_cache, hsv]
    rw [if_neg hfresh]

/-- Witness for the amended claim C10 at a concrete fresh cache file. -/
theorem C10_load_cache_amended_witness :
    load_cache
        (.mapping (some (.num 5)) (some (.list [.dict (mkPaper "a" "t"), .nondict])))
        5 24 =
      [CacheEntry.dict (mkPaper "a" "t"), CacheEntry.nondict].filter CacheEntry.isDict :=
  (C10_load_cache_amended
      (.mapping (some (.num 5)) (some (.list [.dict (mkPaper "a" "t"), .nondict])))
      5 24).2 (some (.num 5)) [.dict (mkPaper "a" "t"), .nondict] 5 rfl rfl
    (by norm_num)

theorem rank_keyword_overlap_length (logf : ℚ → ℚ) (papers : List Paper)
    (q : String) : (rank_keyword_overlap logf papers q).length = papers.length := by
  unfold rank_keyword_overlap
  by_cases hq : tokenize_for_overlap q = []
  · simp [hq]
  · simp only [hq, if_false]
    by_cases hp : papers = []
    · simp [hp]
    · have hd : papers.map docTokens ≠ [] := by simpa using hp
      simp only [hd, if_false]
      unfold pySortByScoreDesc
      rw [List.length_insertionSort, List.length_map]

/-- Claim C3 is false as stated: with keywords ["transformer"] and one
fetched paper titled "quantum stuff" (which contains no keyword), the
keyword filter output is empty, yet the coarse candidate pool fed to the
fine ranker still contains that paper — run() ranks the unfiltered
fetched list and uses the filter result only for a diagnostic count. -/
theorem C3_counterexample :
    (coarseStage (fun _ => 0) [mkPaper "x" "quantum stuff"] ["transformer"]
        "quantum" 5).filtered = [] ∧
    ((coarseStage (fun _ => 0) [mkPaper "x" "quantum stuff"] ["transformer"]
        "quantum" 5).coarse_candidates.map Paper.title) = ["quantum stuff"] ∧
    ∀ p ∈ (coarseStage (fun _ => 0) [mkPaper "x" "quantum stuff"] ["transformer"]
        "quantum" 5).coarse_candidates,
      strContains (strLower (p.title ++ " " ++ p.summary)) "transformer" = false := by
  decide

/-- Claim C3 (amended): the coarse candidate pool fed to the fine ranker
is the BM25 ranking of the unfiltered fetched list truncated to
coarse_target_count; the keyword filter is computed only for the
arxiv_keyword_filtered diagnostic count and does not constrain the pool,
whose size is min(coarse_target_count, number of fetched papers). -/
theorem C3_coarse_pool_amended (logf : ℚ → ℚ) (papers : List Paper)
    (keywords : List String) (query_text : String) (coarse_target_count : ℕ) :
    (coarseStage logf papers keywords query_text coarse_target_count).coarse_candidates =
      (rank_keyword_overlap logf papers query_text).take coarse_target_count ∧
    (coarseStage logf papers keywords query_text coarse_target_count).filtered =
      keyword_filter papers keywords ∧
    (coarseStage logf papers keywords query_text coarse_target_count).coarse_candidates.length =
      min coarse_target_count papers.length := by
  refine ⟨rfl, rfl, ?_⟩
  show ((rank_keyword_overlap logf papers query_text).take coarse_target_count).length = _
  rw [List.length_take, rank_keyword_overlap_length]

theorem mem_dropWhile_of_not (p : Char → Bool) (c : Char) (hc : p c = false) :
    ∀ l : List Char, c ∈ l → c ∈ l.dropWhile p := by
  intro l
  induction l with
  | nil => intro h; cases h
  | cons a l' ih =>
    intro h
    rw [List.dropWhile_cons]
    by_cases hpa : p a = true
    · rw [if_pos hpa]
      rcases List.mem_cons.mp h with rfl | h'
      · rw [hc] at hpa; cases hpa
      · exact ih h'
    · rw [if_neg hpa]
      exact h

theorem pyStripStr_ne_empty (s : String) (c : Char) (h : c ∈ s.data)
    (hc : isWsChar c = false) : pyStripStr s ≠ "" := by
  intro he
  have hdata : pyStripL s.data = [] := congrArg String.data he
  unfold pyStripL at hdata
  have h1 : c ∈ s.data.dropWhile isWsChar := mem_dropWhile_of_not _ c hc _ h
  have h2 : c ∈ (s.data.dropWhile isWsChar).reverse := List.mem_reverse.mpr h1
  have h3 : c ∈ (s.data.dropWhile isWsChar).reverse.dropWhile isWsChar :=
    mem_dropWhile_of_not _ c hc _ h2
  have h4 : c ∈ ((s.data.dropWhile isWsChar).reverse.dropWhile isWsChar).reverse :=
    List.mem_reverse.mpr h3
  rw [hdata] at h4
  cases h4

theorem joinSep_cons (sep a : String) (l : List String) :
    ∃ t : String, joinSep sep (a :: l) = a ++ t := by
  cases l with
  | nil => exact ⟨"", by simp [joinSep]⟩
  | cons b l' => exact ⟨sep ++ joinSep sep (b :: l'), by simp [joinSep, String.append_assoc]⟩

theorem mem_data_append_left (a b : String) (c : Char) (h : c ∈ a.data) :
    c ∈ (a ++ b).data := by
  rw [String.data_append]
  exact List.mem_append_left _ h

theorem build_query_strip_ne (categories keywords : List String)
    (hc : categories ≠ []) (hk : keywords ≠ []) :
    pyStripStr (build_query categories keywords) ≠ "" := by
  match categories, hc, keywords, hk with
  | c0 :: cs, _, k0 :: ks, _ =>
    obtain ⟨tc, htc⟩ := joinSep_cons " OR " ("cat:" ++ c0) (cs.map (fun c => "cat:" ++ c))
    obtain ⟨tk, htk⟩ := joinSep_cons " OR " ("all:\"" ++ k0 ++ "\"")
      (ks.map (fun k => "all:\"" ++ k ++ "\""))
    have hc0 : 'c' ∈ "cat:".data := by decide
    have hcatc : 'c' ∈ (joinSep " OR " ((c0 :: cs).map (fun c => "cat:" ++ c))).data := by
      rw [List.map_cons, htc]
      exact mem_data_append_left _ _ _ (mem_data_append_left _ _ _ hc0)
    have ha0 : 'a' ∈ "all:\"".data := by decide
    have hkwa : 'a' ∈ (joinSep " OR " ((k0 :: ks).map (fun k => "all:\"" ++ k ++ "\""))).data := by
      rw [List.map_cons, htk]
      exact mem_data_append_left _ _ _
        (mem_data_append_left _ _ _ (mem_data_append_left _ _ _ ha0))
    have hcat_ne : joinSep " OR " ((c0 :: cs).map (fun c => "cat:" ++ c)) ≠ "" := by
      intro hx
      rw [hx] at hcatc
      cases hcatc
    have hkw_ne : joinSep " OR " ((k0 :: ks).map (fun k => "all:\"" ++ k ++ "\"")) ≠ "" := by
      intro hx
      rw [hx] at hkwa
      cases hkwa
    unfold build_query
    rw [if_pos ⟨hcat_ne, hkw_ne⟩]
    have hp0 : '(' ∈ "(".data := by decide
    exact pyStripStr_ne_empty _ '('
      (mem_data_append_left _ _ _ (mem_data_append_left _ _ _
        (mem_data_append_left _ _ _ (mem_data_append_left _ _ _ hp0))))
      (by decide)

theorem strict_categories_of_ne (categories : List String) :
    strict_categories_of categories ≠ [] := by
  unfold strict_categories_of
  by_cases h : categories = []
  · rw [if_pos h]; simp
  · rw [if_neg h]
    match categories, h with
    | c :: cs, _ => simp

theorem strict_keywords_of_ne (keywords : List String) :
    strict_keywords_of keywords ≠ [] := by
  unfold strict_keywords_of
  by_cases h : keywords = []
  · rw [if_pos h]; simp
  · rw [if_neg h]
    match keywords, h with
    | k :: ks, _ => simp

theorem take_one_ne {α : Type} (l : List α) (h : l ≠ []) : l.take 1 ≠ [] := by
  match l, h with
  | a :: l', _ => simp

theorem strict_query_strip_ne (categories keywords : List String) :
    pyStripStr (strict_query_of categories keywords) ≠ "" :=
  build_query_strip_ne _ _ (strict_categories_of_ne categories)
    (strict_keywords_of_ne keywords)

theorem fallback_query_strip_ne (categories keywords : List String) :
    pyStripStr (fallback_query_of categories keywords) ≠ "" :=
  build_query_strip_ne _ _ (take_one_ne _ (strict_categories_of_ne categories))
    (take_one_ne _ (strict_keywords_of_ne keywords))

theorem run_timeouts_fail_step (net : ArxivNet) (label query : String)
    (count t : ℕ) (ts : List ℕ) (errs : List String) (e : String)
    (h : failTag label t (fetch_attempt net query count t) = some e) :
    run_timeouts net label query count (t :: ts) errs =
      run_timeouts net label query count ts (errs ++ [e]) := by
  conv_lhs => unfold run_timeouts
  cases hA : fetch_attempt net query count t with
  | error err =>
    rw [hA] at h
    unfold failTag at h
    injection h with he
    rw [← he]
  | ok papers =>
    cases papers with
    | nil =>
      rw [hA] at h
      unfold failTag at h
      injection h with he
      rw [← he]
      simp
    | cons p rest =>
      rw [hA] at h
      unfold failTag at h
      cases h

theorem run_timeouts_ok_step (net : ArxivNet) (label query : String)
    (count t : ℕ) (ts : List ℕ) (errs : List String) (ps : List Paper)
    (h : fetch_attempt net query count t = .ok ps) (hps : ps ≠ []) :
    run_timeouts net label query count (t :: ts) errs = (errs, some ps) := by
  conv_lhs => unfold run_timeouts
  rw [h]
  simp [hps]

theorem run_timeouts_nil (net : ArxivNet) (label query : String) (count : ℕ)
    (errs : List String) :
    run_timeouts net label query count [] errs = (errs, none) := rfl

theorem run_plans_nil (net : ArxivNet) (errs : List String) :
    run_plans net [] errs = ([], ⟨"none", errs, false⟩) := rfl

/-- Claim C5: if the strict query fails (exception or empty merge) on
all 3 of its timeout budgets and the fallback query succeeds with a
nonempty merge on its first budget, the resilient fetcher returns that
result with source "fallback_1c1k", used_cache false, and exactly the 3
tagged strict-query errors; in general the first attempt with a
nonempty merged result wins immediately (second conjunct), and when all
5 attempts fail the fetcher returns the empty list with the full
5-entry error trail and source "none" (third conjunct). -/
theorem C5_fetch_resilient (net : ArxivNet) (categories keywords : List String)
    (fetch_count : ℕ) (e1 e2 e3 : String) (ps : List Paper)
    (h20 : failTag "strict_2c2k" 20
      (fetch_attempt net (strict_query_of categories keywords) fetch_count 20) = some e1)
    (h30 : failTag "strict_2c2k" 30
      (fetch_attempt net (strict_query_of categories keywords) fetch_count 30) = some e2)
    (h45 : failTag "strict_2c2k" 45
      (fetch_attempt net (strict_query_of categories keywords) fetch_count 45) = some e3)
    (hfb : fetch_attempt net (fallback_query_of categories keywords)
      (max fetch_count 20) 20 = .ok ps)
    (hps : ps ≠ []) :
    fetch_arxiv_resilient net categories keywords fetch_count =
      (ps, ⟨"fallback_1c1k", [e1, e2, e3], false⟩) ∧
    (∀ (net' : ArxivNet) (ps' : List Paper),
      fetch_attempt net' (strict_query_of categories keywords) fetch_count 20 = .ok ps' →
      ps' ≠ [] →
      fetch_arxiv_resilient net' categories keywords fetch_count =
        (ps', ⟨"strict_2c2k", [], false⟩)) ∧
    (∀ (net' : ArxivNet) (f1 f2 f3 f4 f5 : String),
      failTag "strict_2c2k" 20
        (fetch_attempt net' (strict_query_of categories keywords) fetch_count 20) = some f1 →
      failTag "strict_2c2k" 30
        (fetch_attempt net' (strict_query_of categories keywords) fetch_count 30) = some f2 →
      failTag "strict_2c2k" 45
        (fetch_attempt net' (strict_query_of categories keywords) fetch_count 45) = some f3 →
      failTag "fallback_1c1k" 20
        (fetch_attempt net' (fallback_query_of categories keywords)
          (max fetch_count 20) 20) = some f4 →
      failTag "fallback_1c1k" 35
        (fetch_attempt net' (fallback_query_of categories keywords)
          (max fetch_count 20) 35) = some f5 →
      fetch_arxiv_resilient net' categories keywords fetch_count =
        ([], ⟨"none", [f1, f2, f3, f4, f5], false⟩)) := by
  refine ⟨?_, ?_, ?_⟩
  · unfold fetch_arxiv_resilient
    conv_lhs => unfold run_plans
    rw [if_neg (strict_query_strip_ne categories keywords),
      run_timeouts_fail_step _ _ _ _ _ _ _ _ h20,
      run_timeouts_fail_step _ _ _ _ _ _ _ _ h30,
      run_timeouts_fail_step _ _ _ _ _ _ _ _ h45,
      run_timeouts_nil]
    show run_plans net
      [("fallback_1c1k", fallback_query_of categories keywords,
        max fetch_count 20, [20, 35])] ((([] ++ [e1]) ++ [e2]) ++ [e3]) = _
    conv_lhs => unfold run_plans
    rw [if_neg (fallback_query_strip_ne categories keywords),
      run_timeouts_ok_step _ _ _ _ _ _ _ _ hfb hps]
    simp
  · intro net' ps' h hps'
    unfold fetch_arxiv_resilient
    conv_lhs => unfold run_plans
    rw [if_neg (strict_query_strip_ne categories keywords),
      run_timeouts_ok_step _ _ _ _ _ _ _ _ h hps']
  · intro net' f1 f2 f3 f4 f5 g20 g30 g45 g20f g35f
    unfold fetch_arxiv_resilient
    conv_lhs => unfold run_plans
    rw [if_neg (strict_query_strip_ne categories keywords),
      run_timeouts_fail_step _ _ _ _ _ _ _ _ g20,
      run_timeouts_fail_step _ _ _ _ _ _ _ _ g30,
      run_timeouts_fail_step _ _ _ _ _ _ _ _ g45,
      run_timeouts_nil]
    show run_plans net'
      [("fallback_1c1k", fallback_query_of categories keywords,
        max fetch_count 20, [20, 35])] ((([] ++ [f1]) ++ [f2]) ++ [f3]) = _
    conv_lhs => unfold run_plans
    rw [if_neg (fallback_query_strip_ne categories keywords),
      run_timeouts_fail_step _ _ _ _ _ _ _ _ g20f,
      run_timeouts_fail_step _ _ _ _ _ _ _ _ g35f,
      run_timeouts_nil]
    show run_plans net' [] ([] ++ [f1] ++ [f2] ++ [f3] ++ [f4] ++ [f5]) = _
    rw [run_plans_nil]
    simp

/-- Witness for claim C5: a concrete oracle on which the strict query
raises on every budget and the fallback query returns one paper. -/
theorem C5_fetch_resilient_witness :
    fetch_arxiv_resilient netFailStrict ["cs.AI", "cs.LG"] ["aa", "bb"] 40 =
      ([mkPaper "p" "t"],
        ⟨"fallback_1c1k",
          ["strict_2c2k:t20:boom", "strict_2c2k:t30:boom", "strict_2c2k:t45:boom"],
          false⟩) :=
  (C5_fetch_resilient netFailStrict ["cs.AI", "cs.LG"] ["aa", "bb"] 40
    "strict_2c2k:t20:boom" "strict_2c2k:t30:boom" "strict_2c2k:t45:boom"
    [mkPaper "p" "t"] (by decide) (by decide) (by decide) (by rfl)
    (by decide)).1

theorem round6_zero : round6 0 = 0 := by
  simp [round6]

theorem round6_nonneg (q : ℚ) (h : 0 ≤ q) : 0 ≤ round6 q := by
  unfold round6
  apply div_nonneg _ (by norm_num)
  rw [Int.cast_nonneg, round_eq]
  rw [Int.floor_nonneg]
  nlinarith

theorem bm25Sum_acc (logf : ℚ → ℚ) (n_docs : ℕ) (doc_terms : List (List String))
    (avg_dl : ℚ) (query_terms : List String) :
    ∀ acc : ℚ, query_terms.foldl
      (fun acc term =>
        let freq : ℕ := List.count term ([] : List String)
        if freq = 0 then acc
        else
          let dl : ℚ := ([] : List String).length
          let denom := (freq : ℚ) + (6/5) * (1 - 3/4 + (3/4) * dl / max (1/1000000) avg_dl)
          acc + idfVal logf n_docs doc_terms term * (((freq : ℚ) * (6/5 + 1)) / max (1/1000000) denom))
      acc = acc := by
  induction query_terms with
  | nil => intro acc; rfl
  | cons t ts ih =>
    intro acc
    simp only [List.foldl_cons, List.count_nil]
    exact ih acc

theorem bm25Sum_nil_terms (logf : ℚ → ℚ) (n_docs : ℕ)
    (doc_terms : List (List String)) (avg_dl : ℚ) (query_terms : List String) :
    bm25Sum logf n_docs doc_terms avg_dl query_terms [] = 0 := by
  unfold bm25Sum
  exact bm25Sum_acc logf n_docs doc_terms avg_dl query_terms 0

theorem dfCount_le (doc_terms : List (List String)) (t : String) :
    dfCount doc_terms t ≤ doc_terms.length :=
  List.length_filter_le _ _

theorem idfVal_nonneg (logf : ℚ → ℚ) (doc_terms : List (List String)) (t : String)
    (hlog : ∀ x : ℚ, 1 ≤ x → 0 ≤ logf x) :
    0 ≤ idfVal logf doc_terms.length doc_terms t := by
  unfold idfVal
  apply hlog
  have hdf : (dfCount doc_terms t : ℚ) ≤ (doc_terms.length : ℚ) := by
    exact_mod_cast dfCount_le doc_terms t
  have hpos : (0 : ℚ) < (dfCount doc_terms t : ℚ) + 1/2 := by positivity
  have hnum : (0 : ℚ) ≤ (doc_terms.length : ℚ) - (dfCount doc_terms t : ℚ) + 1/2 := by
    linarith
  nlinarith [div_nonneg hnum (le_of_lt hpos)]

theorem bm25Sum_nonneg (logf : ℚ → ℚ) (doc_terms : List (List String))
    (avg_dl : ℚ) (query_terms terms : List String)
    (hlog : ∀ x : ℚ, 1 ≤ x → 0 ≤ logf x) :
    0 ≤ bm25Sum logf doc_terms.length doc_terms avg_dl query_terms terms := by
  unfold bm25Sum
  suffices h : ∀ acc : ℚ, 0 ≤ acc → 0 ≤ query_terms.foldl
      (fun acc term =>
        let freq : ℕ := terms.count term
        if freq = 0 then acc
        else
          let dl : ℚ := terms.length
          let denom := (freq : ℚ) + (6/5) * (1 - 3/4 + (3/4) * dl / max (1/1000000) avg_dl)
          acc + idfVal logf doc_terms.length doc_terms term *
            (((freq : ℚ) * (6/5 + 1)) / max (1/1000000) denom))
      acc from h 0 (le_refl 0)
  induction query_terms with
  | nil => intro acc hacc; exact hacc
  | cons t ts ih =>
    intro acc hacc
    rw [List.foldl_cons]
    apply ih
    by_cases hf : terms.count t = 0
    · simp only [hf, if_pos rfl]
      exact hacc
    · rw [if_neg hf]
      have h1 : 0 ≤ idfVal logf doc_terms.length doc_terms t :=
        idfVal_nonneg logf doc_terms t hlog
      have h2 : (0 : ℚ) ≤ ((terms.count t : ℚ) * (6/5 + 1)) /
          max (1/1000000) ((terms.count t : ℚ) +
            (6/5) * (1 - 3/4 + (3/4) * (terms.length : ℚ) / max (1/1000000) avg_dl)) := by
        apply div_nonneg
        · positivity
        · exact le_trans (by norm_num) (le_max_left _ _)
      nlinarith [mul_nonneg h1 h2]

theorem titleBonus_nonneg (query_terms t_terms : List String) :
    0 ≤ titleBonus query_terms t_terms := by
  unfold titleBonus
  by_cases h : t_terms ≠ []
  · rw [if_pos h]
    apply mul_nonneg (by norm_num)
    apply div_nonneg (by positivity)
    exact le_trans (by norm_num) (le_max_left _ _)
  · rw [if_neg h]

theorem titleTokens_of_docTokens_nil (p : Paper) (h : docTokens p = []) :
    titleTokens p = [] := by
  unfold docTokens at h
  rw [tokenize_append_space] at h
  exact (List.append_eq_nil.mp h).1

theorem docScoreVal_eq_spec (logf : ℚ → ℚ) (doc_terms : List (List String))
    (avg_dl : ℚ) (query_terms : List String) (p : Paper) :
    docScoreVal logf doc_terms.length doc_terms avg_dl query_terms
        (docTokens p) (titleTokens p) =
      bm25Sum logf doc_terms.length doc_terms avg_dl query_terms (docTokens p) +
        titleBonus query_terms (titleTokens p) := by
  unfold docScoreVal
  by_cases h : docTokens p = []
  · rw [if_pos h, h, bm25Sum_nil_terms, titleTokens_of_docTokens_nil p h]
    unfold titleBonus
    rw [if_neg (by simp)]
    norm_num
  · rw [if_neg h]

theorem specScoreOf_empty (logf : ℚ → ℚ) (papers : List Paper)
    (query_text : String) (p : Paper) (h : docTokens p = []) :
    specScoreOf logf papers query_text p = 0 := by
  unfold specScoreOf
  rw [h, titleTokens_of_docTokens_nil p h]
  simp only [bm25Sum_nil_terms]
  simp [titleBonus]

theorem specScoreOf_nonneg (logf : ℚ → ℚ) (papers : List Paper)
    (query_text : String) (p : Paper)
    (hlog : ∀ x : ℚ, 1 ≤ x → 0 ≤ logf x) :
    0 ≤ specScoreOf logf papers query_text p := by
  unfold specScoreOf
  exact add_nonneg
    (bm25Sum_nonneg logf (papers.map docTokens) _ _ _ hlog)
    (titleBonus_nonneg _ _)

/-- Claim C7 is false as stated for a query with no recognized terms
(here the single character "a", below the 2-character token threshold):
the ranker returns the papers unchanged, with no semantic_score
attached and no sorting. -/
theorem C7_counterexample :
    rank_keyword_overlap (fun x => x) [mkPaper "x" "hello world"] "a" =
      [mkPaper "x" "hello world"] ∧
    (mkPaper "x" "hello world").semantic_score = none ∧
    tokenize_for_overlap "a" = [] := by decide

/-- Claim C7 (amended): provided the query yields at least one
recognized term, the coarse ranker attaches to every document, as
semantic_score, its guarded BM25 score (k1 = 1.2, b = 0.75) plus the
0.6-weighted title-overlap bonus, rounded to 6 decimal digits, and
stably sorts descending by that score; a document whose text yields no
tokens scores exactly 0, all scores are nonnegative (for a nonnegative
logarithm on [1, infinity), as the real logarithm is), and every
token-free document sorts after every positively scored one. The ranker
is a total function, so no input causes an error. -/
theorem C7_rank_keyword_overlap_amended (logf : ℚ → ℚ) (papers : List Paper)
    (query_text : String) (hq : tokenize_for_overlap query_text ≠ [])
    (hlog : ∀ x : ℚ, 1 ≤ x → 0 ≤ logf x) :
    rank_keyword_overlap logf papers query_text =
      pySortByScoreDesc (papers.map (fun p =>
        { p with
          semantic_score := some (round6 (specScoreOf logf papers query_text p)) })) ∧
    (rank_keyword_overlap logf papers query_text).Pairwise scoreGE ∧
    (∀ p ∈ rank_keyword_overlap logf papers query_text,
      docTokens p = [] → p.semantic_score = some 0) ∧
    (∀ p ∈ rank_keyword_overlap logf papers query_text, 0 ≤ scoreKey p) ∧
    (∀ i j : Fin (rank_keyword_overlap logf papers query_text).length,
      docTokens ((rank_keyword_overlap logf papers query_text).get i) = [] →
      0 < scoreKey ((rank_keyword_overlap logf papers query_text).get j) →
      (j : ℕ) < (i : ℕ)) := by
  have hmain : rank_keyword_overlap logf papers query_text =
      pySortByScoreDesc (papers.map (fun p =>
        { p with
          semantic_score := some (round6 (specScoreOf logf papers query_text p)) })) := by
    by_cases hp : papers = []
    · rw [hp, rank_keyword_overlap_nil]
      rfl
    · simp only [rank_keyword_overlap]
      rw [if_neg hq]
      have hd : papers.map docTokens ≠ [] := by simpa using hp
      rw [if_neg hd]
      congr 1
      apply List.map_congr_left
      intro p hp'
      rw [docScoreVal_eq_spec logf (papers.map docTokens) _ _ p]
      rfl
  have hmem : ∀ p ∈ rank_keyword_overlap logf papers query_text,
      ∃ q ∈ papers,
        p = { q with semantic_score := some (round6 (specScoreOf logf papers query_text q)) } := by
    intro p hp
    rw [hmain] at hp
    unfold pySortByScoreDesc at hp
    rw [List.mem_insertionSort] at hp
    obtain ⟨q, hq', heq⟩ := List.mem_map.mp hp
    exact ⟨q, hq', heq.symm⟩
  have hzero : ∀ p ∈ rank_keyword_overlap logf papers query_text,
      docTokens p = [] → p.semantic_score = some 0 := by
    intro p hp hdoc
    obtain ⟨q, hq', rfl⟩ := hmem p hp
    have hdq : docTokens q = [] := hdoc
    show some (round6 (specScoreOf logf papers query_text q)) = some 0
    rw [specScoreOf_empty logf papers query_text q hdq, round6_zero]
  have hnn : ∀ p ∈ rank_keyword_overlap logf papers query_text,
      0 ≤ scoreKey p := by
    intro p hp
    obtain ⟨q, hq', rfl⟩ := hmem p hp
    show (0 : ℚ) ≤ round6 (specScoreOf logf papers query_text q)
    exact round6_nonneg _ (specScoreOf_nonneg logf papers query_text q hlog)
  have hpair : (rank_keyword_overlap logf papers query_text).Pairwise scoreGE := by
    rw [hmain]
    exact List.sorted_insertionSort scoreGE _
  refine ⟨hmain, hpair, hzero, hnn, ?_⟩
  intro i j hdoc hpos
  by_contra hcon
  push_neg at hcon
  have hzi : scoreKey ((rank_keyword_overlap logf papers query_text).get i) = 0 := by
    have hs := hzero _ (List.get_mem _ _ _) hdoc
    unfold scoreKey
    rw [hs]
    rfl
  rcases eq_or_lt_of_le hcon with heq | hlt
  · have : i = j := Fin.ext heq
    rw [← this, hzi] at hpos
    exact lt_irrefl 0 hpos
  · have hP := (List.pairwise_iff_getElem.mp hpair) i j i.2 j.2 hlt
    have hij : scoreKey ((rank_keyword_overlap logf papers query_text).get j) ≤
        scoreKey ((rank_keyword_overlap logf papers query_text).get i) := by
      simpa [List.get_eq_getElem, scoreGE] using hP
    rw [hzi] at hij
    exact absurd (lt_of_lt_of_le hpos hij) (lt_irrefl 0)

/-- Witness for the amended claim C7 at a concrete document list, query
and logarithm oracle. -/
theorem C7_rank_keyword_overlap_amended_witness :
    rank_keyword_overlap (fun _ => 0) [mkPaper "x" "tx"] "hello" =
      pySortByScoreDesc ([mkPaper "x" "tx"].map (fun p =>
        { p with
          semantic_score := some (round6 (specScoreOf (fun _ => 0) [mkPaper "x" "tx"] "hello" p)) })) :=
  (C7_rank_keyword_overlap_amended (fun _ => 0) [mkPaper "x" "tx"] "hello"
    (by decide) (fun x hx => le_refl 0)).1

/-- Claim C1: for every structured request (any categories, keywords
and max_results values, including missing or malformed ones) and any
configured defaults, the query-plan computation returns (it is a total
function) a plan satisfying target_count ≤ coarse_target_count ≤
fetch_count with target_count in [1,50], coarse_target_count in
[target_count,120] and fetch_count in [40,300]. -/
theorem C1_queryPlan_bounds (categoriesRaw keywordsRaw : Option (List String))
    (maxResultsRaw finalCountSetting fetchMaxSetting : Option Int) :
    1 ≤ (buildQueryPlan categoriesRaw keywordsRaw maxResultsRaw
        finalCountSetting fetchMaxSetting).target_count ∧
    (buildQueryPlan categoriesRaw keywordsRaw maxResultsRaw
        finalCountSetting fetchMaxSetting).target_count ≤ 50 ∧
    (buildQueryPlan categoriesRaw keywordsRaw maxResultsRaw
        finalCountSetting fetchMaxSetting).target_count ≤
      (buildQueryPlan categoriesRaw keywordsRaw maxResultsRaw
        finalCountSetting fetchMaxSetting).coarse_target_count ∧
    (buildQueryPlan categoriesRaw keywordsRaw maxResultsRaw
        finalCountSetting fetchMaxSetting).coarse_target_count ≤ 120 ∧
    (buildQueryPlan categoriesRaw keywordsRaw maxResultsRaw
        finalCountSetting fetchMaxSetting).coarse_target_count ≤
      (buildQueryPlan categoriesRaw keywordsRaw maxResultsRaw
        finalCountSetting fetchMaxSetting).fetch_count ∧
    40 ≤ (buildQueryPlan categoriesRaw keywordsRaw maxResultsRaw
        finalCountSetting fetchMaxSetting).fetch_count ∧
    (buildQueryPlan categoriesRaw keywordsRaw maxResultsRaw
        finalCountSetting fetchMaxSetting).fetch_count ≤ 300 := by
  simp only [buildQueryPlan, get_system_param_int, safe_int]
  cases finalCountSetting <;> cases fetchMaxSetting <;> cases maxResultsRaw <;>
    simp only [Option.getD] <;> omega

theorem dedupByKey_key_mem (l : List Paper) :
    ∀ (seen : List String), ∀ q ∈ dedupByKey seen l,
      identityKey q ≠ "" ∧ identityKey q ∉ seen ∧
        l.find? (fun p => identityKey p == identityKey q) = some q := by
  induction l with
  | nil => intro seen q hq; simp [dedupByKey] at hq
  | cons p rest ih =>
    intro seen q hq
    simp only [dedupByKey] at hq
    by_cases hgood : identityKey p ≠ "" ∧ identityKey p ∉ seen
    · rw [if_pos hgood] at hq
      rcases List.mem_cons.mp hq with rfl | hq'
      · refine ⟨hgood.1, hgood.2, ?_⟩
        rw [List.find?_cons_of_pos]
        simp
      · obtain ⟨h1, h2, h3⟩ := ih _ q hq'
        have hne : identityKey p ≠ identityKey q := by
          intro he
          exact h2 (by rw [← he]; exact List.mem_cons_self _ _)
        refine ⟨h1, fun hs => h2 (List.mem_cons_of_mem _ hs), ?_⟩
        rw [List.find?_cons_of_neg, h3]
        simpa using hne
    · rw [if_neg hgood] at hq
      obtain ⟨h1, h2, h3⟩ := ih _ q hq
      have hne : identityKey p ≠ identityKey q := by
        intro he
        rcases not_and_or.mp hgood with hbad | hbad
        · exact h1 (by rw [← he]; simpa using hbad)
        · exact h2 (by rw [← he]; simpa using hbad)
      refine ⟨h1, h2, ?_⟩
      rw [List.find?_cons_of_neg, h3]
      simpa using hne

theorem dedupByKey_pairwise (l : List Paper) :
    ∀ seen : List String,
      (dedupByKey seen l).Pairwise (fun a b => identityKey a ≠ identityKey b) := by
  induction l with
  | nil => intro seen; simp [dedupByKey]
  | cons p rest ih =>
    intro seen
    simp only [dedupByKey]
    by_cases hgood : identityKey p ≠ "" ∧ identityKey p ∉ seen
    · rw [if_pos hgood]
      refine List.Pairwise.cons ?_ (ih _)
      intro b hb he
      have hm := (dedupByKey_key_mem rest _ b hb).2.1
      exact hm (by rw [← he]; exact List.mem_cons_self _ _)
    · rw [if_neg hgood]; exact ih _

theorem dedupByKey_append (l₁ l₂ : List Paper) :
    ∀ seen, dedupByKey seen (l₁ ++ l₂) =
      dedupByKey seen l₁ ++ dedupByKey (ddSeen seen l₁) l₂ := by
  induction l₁ with
  | nil => intro seen; simp [dedupByKey, ddSeen]
  | cons p rest ih =>
    intro seen
    simp only [List.cons_append, List.append_eq, dedupByKey, ddSeen]
    by_cases hgood : identityKey p ≠ "" ∧ identityKey p ∉ seen
    · rw [if_pos hgood, if_pos hgood, if_pos hgood, ih, List.cons_append]
    · rw [if_neg hgood, if_neg hgood, if_neg hgood, ih]

theorem mergeLoop_take (cap : ℕ) (l : List Paper) :
    ∀ (seen : List String) (sel : List Paper),
      ∃ n, (mergeLoop cap seen sel l).2 = sel ++ (dedupByKey seen l).take n := by
  induction l with
  | nil => intro seen sel; exact ⟨0, by simp [mergeLoop, dedupByKey]⟩
  | cons p rest ih =>
    intro seen sel
    simp only [mergeLoop, dedupByKey]
    by_cases hgood : identityKey p ≠ "" ∧ identityKey p ∉ seen
    · rw [if_pos hgood, if_pos hgood]
      by_cases hcap : cap ≤ (sel ++ [p]).length
      · rw [if_pos hcap]
        exact ⟨1, by simp⟩
      · rw [if_neg hcap]
        obtain ⟨n, hn⟩ := ih (identityKey p :: seen) (sel ++ [p])
        exact ⟨n + 1, by rw [hn]; simp⟩
    · rw [if_neg hgood, if_neg hgood]
      by_cases hcap : cap ≤ sel.length
      · rw [if_pos hcap]; exact ⟨0, by simp⟩
      · rw [if_neg hcap]; exact ih seen sel

theorem mergeLoop_eq_take (cap : ℕ) (l : List Paper) :
    ∀ (seen : List String) (sel : List Paper), sel.length < cap →
      (mergeLoop cap seen sel l).2 =
        sel ++ (dedupByKey seen l).take (cap - sel.length) := by
  induction l with
  | nil => intro seen sel _; simp [mergeLoop, dedupByKey]
  | cons p rest ih =>
    intro seen sel h
    simp only [mergeLoop, dedupByKey]
    by_cases hgood : identityKey p ≠ "" ∧ identityKey p ∉ seen
    · rw [if_pos hgood, if_pos hgood]
      by_cases hcap : cap ≤ (sel ++ [p]).length
      · rw [if_pos hcap]
        have h1 : cap - sel.length = 1 := by
          simp only [List.length_append, List.length_singleton] at hcap
          omega
        rw [h1]
        simp
      · rw [if_neg hcap]
        have h' : (sel ++ [p]).length < cap := lt_of_not_le hcap
        rw [ih _ _ h']
        have h2 : cap - sel.length = (cap - (sel ++ [p]).length) + 1 := by
          simp only [List.length_append, List.length_singleton] at h' ⊢
          omega
        rw [h2]
        simp [List.take_succ_cons]
    · rw [if_neg hgood, if_neg hgood, if_neg (not_le.mpr h)]
      exact ih seen sel h

theorem mergeLoop_seen (cap : ℕ) (l : List Paper) :
    ∀ (seen : List String) (sel : List Paper), sel.length < cap →
      (mergeLoop cap seen sel l).2.length < cap →
      (mergeLoop cap seen sel l).1 = ddSeen seen l := by
  induction l with
  | nil => intro seen sel _ _; simp [mergeLoop, ddSeen]
  | cons p rest ih =>
    intro seen sel h hlen
    simp only [mergeLoop] at hlen ⊢
    simp only [ddSeen]
    by_cases hgood : identityKey p ≠ "" ∧ identityKey p ∉ seen
    · rw [if_pos hgood] at hlen
      rw [if_pos hgood, if_pos hgood]
      by_cases hcap : cap ≤ (sel ++ [p]).length
      · rw [if_pos hcap] at hlen
        exact absurd hlen (not_lt.mpr hcap)
      · rw [if_neg hcap] at hlen
        rw [if_neg hcap]
        exact ih _ _ (lt_of_not_le hcap) hlen
    · rw [if_neg hgood] at hlen
      rw [if_neg hgood, if_neg hgood]
      rw [if_neg (not_le.mpr h)] at hlen
      rw [if_neg (not_le.mpr h)]
      exact ih _ _ h hlen

theorem selectMerge_prefixForm (fine coarse : List Paper) (cap : ℕ) :
    ∃ m, selectMerge fine coarse cap = (dedupByKey [] (fine ++ coarse)).take m := by
  unfold selectMerge
  by_cases hc : (mergeLoop cap [] [] fine).2.length < cap
  · rw [if_pos hc]
    have h0 : ([] : List Paper).length < cap := lt_of_le_of_lt (Nat.zero_le _) hc
    have hfull : (mergeLoop cap [] [] fine).2 =
        (dedupByKey [] fine).take (cap - 0) := by
      simpa using mergeLoop_eq_take cap fine [] [] h0
    have hseen : (mergeLoop cap [] [] fine).1 = ddSeen [] fine :=
      mergeLoop_seen cap fine [] [] h0 hc
    have hlt : (dedupByKey [] fine).length < cap := by
      by_contra hge
      rw [hfull, List.length_take] at hc
      omega
    have hall : (dedupByKey [] fine).take (cap - 0) = dedupByKey [] fine := by
      apply List.take_of_length_le
      omega
    obtain ⟨n, hn⟩ := mergeLoop_take cap coarse
      (mergeLoop cap [] [] fine).1 (mergeLoop cap [] [] fine).2
    refine ⟨(dedupByKey [] fine).length + n, ?_⟩
    rw [hn, hfull, hall, hseen, dedupByKey_append]
    rw [List.take_append]
  · rw [if_neg hc]
    obtain ⟨n, hn⟩ := mergeLoop_take cap fine [] []
    refine ⟨min n (dedupByKey [] fine).length, ?_⟩
    rw [hn, List.nil_append, dedupByKey_append,
      List.take_append_of_le_length (by omega : min n (dedupByKey [] fine).length ≤ (dedupByKey [] fine).length)]
    rw [← List.take_take, List.take_length]

theorem dedupByKey_length (l : List Paper) :
    ∀ seen : List String, (dedupByKey seen l).length =
      ((l.map identityKey).filter
        (fun k => decide (k ≠ "" ∧ k ∉ seen))).toFinset.card := by
  induction l with
  | nil => intro seen; simp [dedupByKey]
  | cons p rest ih =>
    intro seen
    simp only [dedupByKey, List.map_cons, List.filter_cons]
    by_cases hgood : identityKey p ≠ "" ∧ identityKey p ∉ seen
    · rw [if_pos hgood, if_pos (decide_eq_true_eq.mpr hgood)]
      simp only [List.length_cons, ih, List.toFinset_cons]
      have hfil : (rest.map identityKey).filter
            (fun k => decide (k ≠ "" ∧ k ∉ identityKey p :: seen)) =
          ((rest.map identityKey).filter
            (fun k => decide (k ≠ "" ∧ k ∉ seen))).filter
            (fun k => decide (k ≠ identityKey p)) := by
        rw [List.filter_filter]
        apply List.filter_congr
        intro x _
        by_cases h1 : x = identityKey p <;> by_cases h2 : x = "" <;>
          by_cases h3 : x ∈ seen <;> simp [h1, h2, h3]
      rw [hfil]
      set A := ((rest.map identityKey).filter
        (fun k => decide (k ≠ "" ∧ k ∉ seen))).toFinset with hA
      have h2 : (((rest.map identityKey).filter
            (fun k => decide (k ≠ "" ∧ k ∉ seen))).filter
            (fun k => decide (k ≠ identityKey p))).toFinset =
          A.erase (identityKey p) := by
        rw [hA]
        ext x
        simp only [List.mem_toFinset, List.mem_filter, Finset.mem_erase,
          decide_eq_true_eq]
        tauto
      rw [h2]
      by_cases hmem : identityKey p ∈ A
      · rw [Finset.card_erase_add_one hmem, Finset.insert_eq_self.mpr hmem]
      · rw [Finset.erase_eq_of_not_mem hmem, Finset.card_insert_of_not_mem hmem]
    · rw [if_neg hgood, if_neg (by simpa using hgood), ih]

theorem dedupByKey_nil_length (l : List Paper) :
    (dedupByKey [] l).length = keyCount l := by
  rw [dedupByKey_length]
  unfold keyCount
  congr 2
  apply List.filter_congr
  intro x _
  simp

/-- Claim C2: for every pair of input lists and every cap, the selection
merger output has pairwise distinct identity keys; every selected paper
is the first paper of the concatenated input carrying its identity key;
hence when two input papers share a key (for instance the same nonempty
id with different titles) only the first-encountered one can be kept. -/
theorem C2_selectMerge_dedup (fine coarse : List Paper) (cap : ℕ) :
    (selectMerge fine coarse cap).Pairwise (fun a b => identityKey a ≠ identityKey b) ∧
    (∀ q ∈ selectMerge fine coarse cap,
      (fine ++ coarse).find? (fun p => identityKey p == identityKey q) = some q) ∧
    ∀ p q : Paper, p ≠ q → identityKey p = identityKey q →
      (fine ++ coarse).find? (fun x => identityKey x == identityKey q) = some p →
      q ∉ selectMerge fine coarse cap := by
  obtain ⟨m, hm⟩ := selectMerge_prefixForm fine coarse cap
  have hfind : ∀ q ∈ selectMerge fine coarse cap,
      (fine ++ coarse).find? (fun p => identityKey p == identityKey q) = some q := by
    intro q hq
    rw [hm] at hq
    exact (dedupByKey_key_mem _ _ q (List.take_subset _ _ hq)).2.2
  refine ⟨?_, hfind, ?_⟩
  · rw [hm]
    exact List.Pairwise.sublist (List.take_sublist _ _) (dedupByKey_pairwise _ _)
  · intro p q hne hkey hfirst hq
    have := hfind q hq
    rw [hfirst] at this
    exact hne (Option.some_injective _ this)

/-- Witness for claim C2, realizing the scenario of two papers sharing
an id with different titles: only the first-encountered one is kept. -/
theorem C2_selectMerge_dedup_witness :
    (mkPaper "i1" "t2") ∉ selectMerge [mkPaper "i1" "t1"] [mkPaper "i1" "t2"] 5 :=
  (C2_selectMerge_dedup [mkPaper "i1" "t1"] [mkPaper "i1" "t2"] 5).2.2
    (mkPaper "i1" "t1") (mkPaper "i1" "t2") (by decide) (by decide) (by decide)

/-- Claim C6 is false as stated for cap = 0: with one fine-ranked paper
and an empty coarse list the merger returns one paper, exceeding the cap
and differing from min(cap, size of the key union), because the stop
test of the loop runs only after an append. -/
theorem C6_counterexample :
    (selectMerge [mkPaper "x" "t"] [] 0).length = 1 ∧
    ¬((selectMerge [mkPaper "x" "t"] [] 0).length ≤ 0) ∧
    min 0 (keyCount ([mkPaper "x" "t"] ++ [])) = 0 := by decide

/-- Claim C6 (amended): for every pair of input lists and every cap that
is at least 1 (as every cap produced by the query plan is), the
selection merger output length is exactly min(cap, number of distinct
nonempty identity keys of the concatenated inputs) and never exceeds the
cap. -/
theorem C6_selectMerge_length (fine coarse : List Paper) (cap : ℕ) (hcap : 1 ≤ cap) :
    (selectMerge fine coarse cap).length = min cap (keyCount (fine ++ coarse)) ∧
    (selectMerge fine coarse cap).length ≤ cap := by
  have hmain : (selectMerge fine coarse cap).length =
      min cap (keyCount (fine ++ coarse)) := by
    rw [← dedupByKey_nil_length, dedupByKey_append]
    unfold selectMerge
    have h0 : ([] : List Paper).length < cap := by simpa using hcap
    have hsel1 : (mergeLoop cap [] [] fine).2 = (dedupByKey [] fine).take cap := by
      have h := mergeLoop_eq_take cap fine [] [] h0
      simpa using h
    by_cases hc : (mergeLoop cap [] [] fine).2.length < cap
    · rw [if_pos hc]
      have hseen := mergeLoop_seen cap fine [] [] h0 hc
      have hlt : (dedupByKey [] fine).length < cap := by
        rw [hsel1, List.length_take] at hc
        omega
      have hful : (mergeLoop cap [] [] fine).2 = dedupByKey [] fine := by
        rw [hsel1]
        exact List.take_of_length_le (le_of_lt hlt)
      rw [mergeLoop_eq_take cap coarse _ _ hc, hful, hseen]
      simp only [List.length_append, List.length_take]
      omega
    · rw [if_neg hc]
      rw [hsel1] at hc ⊢
      simp only [List.length_take, List.length_append] at hc ⊢
      omega
  exact ⟨hmain, hmain ▸ min_le_left _ _⟩

/-- Witness for the amended claim C6 at a concrete cap of 1. -/
theorem C6_selectMerge_length_witness :
    (selectMerge [mkPaper "x" "t"] [mkPaper "y" "u"] 1).length =
      min 1 (keyCount ([mkPaper "x" "t"] ++ [mkPaper "y" "u"])) ∧
    (selectMerge [mkPaper "x" "t"] [mkPaper "y" "u"] 1).length ≤ 1 :=
  C6_selectMerge_length [mkPaper "x" "t"] [mkPaper "y" "u"] 1 (by decide)

end Lemmas

end PaperScout
